import Mathlib

/-!
Verification of the script resolution and execution engine of `uv_script`
(`src/uv_script/runner.py`, with the data model of `src/uv_script/config.py`).

The embedding models:
* `ScriptDef` — the normalized script record produced by the config loader;
* `resolve_steps` — depth-first expansion of a (possibly composite) script
  into a flat list of `(command, env)` steps with path-local cycle detection;
* `run_script` / `_exec_one` — ordered fail-fast execution, command-vector
  construction (`uv run` prefix, `--with-editable` / `--extra` flag pairs,
  shell tokenization) and environment composition;
* the fragment of Python's `shlex` the runner uses: `shlex.split` in POSIX
  mode with `whitespace_split=True`, and `shlex.quote`.

Python dictionaries are modelled as association lists with first-match
lookup and in-place-update insertion; the process-spawn primitive is an
oracle parameter returning the child exit code, and the runner additionally
records the trace of spawn calls it performs so that fail-fast and
no-execution properties are observable.
-/

/-- Environment mapping (Python `dict[str, str]`), as an association list. -/
abbrev Env := List (String × String)

/-- A resolved step: a command line paired with its environment overlay. -/
abbrev Step := String × Env

/-- Normalized representation of a script definition (`config.ScriptDef`). -/
structure ScriptDef where
  name : String
  commands : List String
  env : Env := []
  help_text : String := ""
  is_composite : Bool := false
  deriving Repr, DecidableEq

/-- The script registry (`all_scripts : dict[str, ScriptDef]`). -/
abbrev Registry := List (String × ScriptDef)

/-- Dictionary lookup `all_scripts[item]` / membership `item in all_scripts`. -/
def lookupScript (allScripts : Registry) (key : String) : Option ScriptDef :=
  (allScripts.find? (fun p => p.1 = key)).map Prod.snd

/-- Python dict assignment `d[k] = v`: replace in place if the key exists,
otherwise append at the end (insertion order is preserved). -/
def dictInsert (d : Env) (k v : String) : Env :=
  if d.any (fun p => p.1 = k) then
    d.map (fun p => if p.1 = k then (k, v) else p)
  else
    d ++ [(k, v)]

/-- Python dict merge `{**base, **upd}`: keys of `upd` win on collision. -/
def dictMerge (base upd : Env) : Env :=
  upd.foldl (fun d p => dictInsert d p.1 p.2) base

/-- Dictionary lookup `d.get(k)` (first matching key). -/
def lookupEnv (d : Env) (k : String) : Option String :=
  (d.find? (fun p => p.1 = k)).map Prod.snd

/-! ### The `shlex` fragment

`shlex.split(s)` is `list(shlex(s, posix=True))` with `whitespace_split =
True` and `commenters = ''`.  We embed the POSIX token scanner as a state
machine over characters.  The scanner state is the pending token, the
`quoted` flag and the control state; each character emits zero or one
finished tokens (the generator's yields). -/

/-- Scanner control state of `shlex.read_token`:
`between` is `' '`, `word` is `'a'`, `squote`/`dquote` are the two quote
states, `esc` is the escape state entered from `between`/`word`
(`escapedstate = 'a'`), and `escDq` the escape state entered from inside
double quotes (`escapedstate = '"'`). -/
inductive SState where
  | between
  | word
  | squote
  | dquote
  | esc
  | escDq
  deriving Repr, DecidableEq

/-- Scanner kernel: pending token (`self.token`), `quoted` flag, control state. -/
structure SKer where
  tok : List Char
  quoted : Bool
  st : SState
  deriving Repr, DecidableEq

/-- `shlex.whitespace = ' \t\r\n'`. -/
def isWS (c : Char) : Bool :=
  c = ' ' ∨ c = '\t' ∨ c = '\r' ∨ c = '\n'

/-- One character of `shlex.read_token` (POSIX, `whitespace_split`, no
comment characters, no punctuation characters).  Returns the tokens emitted
by this character (zero or one) and the next kernel. -/
def sstepK (k : SKer) (c : Char) : List String × SKer :=
  match k.st with
  | .between =>
      if isWS c then ([], k)
      else if c = '\\' then ([], { k with st := .esc })
      else if c = '\'' then ([], { k with st := .squote })
      else if c = '"' then ([], { k with st := .dquote })
      else ([], { k with tok := k.tok ++ [c], st := .word })
  | .word =>
      if isWS c then
        if k.tok ≠ [] ∨ k.quoted then
          ([String.mk k.tok], ⟨[], false, .between⟩)
        else ([], { k with st := .between })
      else if c = '\\' then ([], { k with st := .esc })
      else if c = '\'' then ([], { k with st := .squote })
      else if c = '"' then ([], { k with st := .dquote })
      else ([], { k with tok := k.tok ++ [c] })
  | .squote =>
      if c = '\'' then ([], { k with quoted := true, st := .word })
      else ([], { k with tok := k.tok ++ [c], quoted := true })
  | .dquote =>
      if c = '"' then ([], { k with quoted := true, st := .word })
      else if c = '\\' then ([], { k with quoted := true, st := .escDq })
      else ([], { k with tok := k.tok ++ [c], quoted := true })
  | .esc => ([], { k with tok := k.tok ++ [c], st := .word })
  | .escDq =>
      if c = '\\' ∨ c = '"' then ([], { k with tok := k.tok ++ [c], st := .dquote })
      else ([], { k with tok := k.tok ++ ['\\', c], st := .dquote })

/-- Run the scanner over a character list, collecting emitted tokens. -/
def srun (k : SKer) : List Char → List String × SKer
  | [] => ([], k)
  | c :: rest =>
      let p := sstepK k c
      let q := srun p.2 rest
      (p.1 ++ q.1, q.2)

/-- End of input: inside a quote raises `No closing quotation`, inside an
escape raises `No escaped character`; otherwise the pending token is
emitted unless it is empty and unquoted. -/
def sfinishK (k : SKer) : Option (List String) :=
  match k.st with
  | .squote => none
  | .dquote => none
  | .esc => none
  | .escDq => none
  | _ => some (if k.tok ≠ [] ∨ k.quoted then [String.mk k.tok] else [])

/-- `shlex.split` on a character list: `none` models the `ValueError`. -/
def shlexSplitCore (cs : List Char) : Option (List String) :=
  let p := srun ⟨[], false, .between⟩ cs
  (sfinishK p.2).map (fun last => p.1 ++ last)

/-- `shlex.split(s)` (POSIX mode, whitespace split). -/
def shlexSplit (s : String) : Option (List String) :=
  shlexSplitCore s.data

/-- Characters `shlex.quote` leaves unquoted: ASCII `\w` plus
`@` `%` `+` `=` `:` `,` `.` `/` `-`. -/
def isSafeChar (c : Char) : Bool :=
  (('a' ≤ c ∧ c ≤ 'z') ∨ ('A' ≤ c ∧ c ≤ 'Z') ∨ ('0' ≤ c ∧ c ≤ '9')) ∨
    c ∈ (['_', '@', '%', '+', '=', ':', ',', '.', '/', '-'] : List Char)

/-- `s.replace("'", "'\"'\"'")`, one character at a time. -/
def quoteCharEnc (c : Char) : List Char :=
  if c = '\'' then ['\'', '"', '\'', '"', '\''] else [c]

/-- `shlex.quote` on a character list. -/
def shQuoteCore (cs : List Char) : List Char :=
  if cs = [] then ['\'', '\'']
  else if cs.all isSafeChar then cs
  else '\'' :: (cs.flatMap quoteCharEnc ++ ['\''])

/-- `shlex.quote(s)`. -/
def shQuote (s : String) : String :=
  String.mk (shQuoteCore s.data)

/-- `" ".join(shlex.quote(a) for a in extras)`, at the character level. -/
def joinQuotedCore : List String → List Char
  | [] => []
  | [a] => shQuoteCore a.data
  | a :: b :: rest => shQuoteCore a.data ++ ' ' :: joinQuotedCore (b :: rest)

/-- The command string actually executed for the last step when extra
arguments are present:
`cmd_str + " " + " ".join(shlex.quote(a) for a in extra_args)`. -/
def appendExtras (cmdStr : String) (extraArgs : List String) : String :=
  String.mk (cmdStr.data ++ ' ' :: joinQuotedCore extraArgs)

/-! ### Resolution (`resolve_steps`)

Python recursion terminates because the path-local `_seen` set grows at
every level; the embedding makes the bound explicit as structural fuel, and
the top-level entry point `resolve_steps` supplies fuel larger than any
possible expansion depth (`|registry| + 2`).  Resolution errors are
`Except.error` carrying the exception message; the fuel-exhaustion error
can never fire for the entry point's fuel on any actual run. -/

/-- The loop body of the composite branch of `resolve_steps`: each entry
whose text is a registry key is expanded by the supplied resolver (which
already carries the extended path-local visited set); any other entry
becomes one literal step with the enclosing composite's environment.
Results are concatenated in listing order; an exception short-circuits. -/
def resolveItemsWith (allScripts : Registry) (env : Env)
    (resolveRef : ScriptDef → Except String (List Step)) :
    List String → Except String (List Step)
  | [] => .ok []
  | item :: rest => do
      let steps ← match lookupScript allScripts item with
        | some referenced => resolveRef referenced
        | none => pure [(item, env)]
      let restSteps ← resolveItemsWith allScripts env resolveRef rest
      pure (steps ++ restSteps)

/-- `resolve_steps` with explicit fuel.  `seen` is the path-local visited
set `_seen`; every child of a composite receives a copy extended with the
composite's own name. -/
def resolveFuel (allScripts : Registry) : Nat → ScriptDef → List String →
    Except String (List Step)
  | 0, _, _ => .error "resolution depth exhausted"
  | fuel + 1, script, seen =>
      if script.name ∈ seen then
        .error ("Circular reference detected: " ++ script.name)
      else if script.is_composite = false then
        .ok (script.commands.map (fun cmd => (cmd, script.env)))
      else
        resolveItemsWith allScripts script.env
          (fun referenced => resolveFuel allScripts fuel referenced (script.name :: seen))
          script.commands

/-- `resolve_steps(script, all_scripts)`: the top-level resolution entry
point (fresh empty visited set). -/
def resolve_steps (script : ScriptDef) (allScripts : Registry) :
    Except String (List Step) :=
  resolveFuel allScripts (allScripts.length + 2) script []

/-! ### Execution (`run_script` and `_exec_one`) -/

/-- A spawn call observed by the process-launch collaborator: the argument
vector and the `env=` argument (`none` is Python's `env=None`, inheriting
the current process environment). -/
abbrev SpawnCall := List String × Option Env

/-- `--with-editable <path>` flag pairs (`editable_flags`), built by the
source's extend loop. -/
def editableFlags (editable : List String) : List String :=
  editable.foldl (fun acc path => acc ++ ["--with-editable", path]) []

/-- `--extra <name>` flag pairs (`features_flags`). -/
def featuresFlags (features : List String) : List String :=
  features.foldl (fun acc name => acc ++ ["--extra", name]) []

/-- The effective environment handed to `subprocess.run`: `run_env = None`
when the step's mapping is empty, otherwise `{**os.environ, **env}`. -/
def composeRunEnv (osEnviron env : Env) : Option Env :=
  if env = [] then none else some (dictMerge osEnviron env)

/-- The command string executed for step `i` of `total`: for the last step
only, non-empty extra arguments are appended (quoted) to the literal
command. -/
def stepCmdStr (cmdStr : String) (extraArgs : List String)
    (i total : Nat) : String :=
  if extraArgs ≠ [] ∧ i = total - 1 then appendExtras cmdStr extraArgs
  else cmdStr

/-- The loop of `run_script`, fused with `_exec_one`.  `spawn i v e` is the
exit code the `i`-th spawned child returns when launched with vector `v`
and environment `e` (the oracle for `subprocess.run`).  The result is the
Python return value (or the propagated exception message) together with
the ordered trace of spawn calls actually performed. -/
def runLoop (spawn : Nat → List String → Option Env → Int) (osEnviron : Env)
    (editable features extraArgs : List String) (total : Nat) :
    Nat → List Step → Except String Int × List SpawnCall
  | _, [] => (.ok 0, [])
  | i, (cmdStr, env) :: rest =>
      match shlexSplit (stepCmdStr cmdStr extraArgs i total) with
      | none => (.error "ValueError: No closing quotation", [])
      | some parts =>
          let fullCmd := ["uv", "run"] ++ editableFlags editable ++
            featuresFlags features ++ parts
          let runEnv := composeRunEnv osEnviron env
          let code := spawn i fullCmd runEnv
          if code ≠ 0 then (.ok code, [(fullCmd, runEnv)])
          else
            let p := runLoop spawn osEnviron editable features extraArgs total
              (i + 1) rest
            (p.1, (fullCmd, runEnv) :: p.2)

/-- `run_script(script, all_scripts, extra_args, verbose, editable,
features)`: resolve, then execute each step in order, fail-fast.  A
resolution error propagates unchanged and nothing is spawned. -/
def run_script (script : ScriptDef) (allScripts : Registry)
    (extraArgs editable features : List String)
    (spawn : Nat → List String → Option Env → Int) (osEnviron : Env) :
    Except String Int × List SpawnCall :=
  match resolve_steps script allScripts with
  | .error e => (.error e, [])
  | .ok steps => runLoop spawn osEnviron editable features extraArgs
      steps.length 0 steps

/-- Decidable equality of `Except` results, by cases on the constructors. -/
instance exceptDecEq {ε α : Type} [DecidableEq ε] [DecidableEq α] :
    DecidableEq (Except ε α) := fun a b =>
  match a, b with
  | .error e, .error f =>
      if h : e = f then isTrue (by rw [h])
      else isFalse (fun hh => by cases hh; exact h rfl)
  | .ok x, .ok y =>
      if h : x = y then isTrue (by rw [h])
      else isFalse (fun hh => by cases hh; exact h rfl)
  | .error _, .ok _ => isFalse (fun h => by cases h)
  | .ok _, .error _ => isFalse (fun h => by cases h)

/-! ### Lemmas about the scanner -/

theorem srun_append (a b : List Char) (k : SKer) :
    srun k (a ++ b) =
      ((srun k a).1 ++ (srun (srun k a).2 b).1, (srun (srun k a).2 b).2) := by
  induction a generalizing k with
  | nil => simp [srun]
  | cons c rest ih => simp [srun, ih (sstepK k c).2, List.append_assoc]

theorem isWS_iff (c : Char) :
    isWS c = true ↔ (c = ' ' ∨ c = '\t' ∨ c = '\r' ∨ c = '\n') := by
  simp [isWS]

theorem isSafeChar_facts {c : Char} (h : isSafeChar c = true) :
    isWS c = false ∧ c ≠ '\'' ∧ c ≠ '"' ∧ c ≠ '\\' := by
  refine ⟨?_, ?_, ?_, ?_⟩
  · cases hw : isWS c with
    | false => rfl
    | true =>
        rcases (isWS_iff c).1 hw with rfl | rfl | rfl | rfl <;>
          exact absurd h (by decide)
  · intro hc; exact absurd (hc ▸ h) (by decide)
  · intro hc; exact absurd (hc ▸ h) (by decide)
  · intro hc; exact absurd (hc ▸ h) (by decide)

theorem sstepK_safe_word {c : Char} (h : isSafeChar c = true)
    (t : List Char) (q : Bool) :
    sstepK ⟨t, q, .word⟩ c = ([], ⟨t ++ [c], q, .word⟩) := by
  obtain ⟨h1, h2, h3, h4⟩ := isSafeChar_facts h
  simp [sstepK, h1, h2, h3, h4]

theorem sstepK_safe_between {c : Char} (h : isSafeChar c = true)
    (t : List Char) (q : Bool) :
    sstepK ⟨t, q, .between⟩ c = ([], ⟨t ++ [c], q, .word⟩) := by
  obtain ⟨h1, h2, h3, h4⟩ := isSafeChar_facts h
  simp [sstepK, h1, h2, h3, h4]

theorem srun_safe_word {cs : List Char} (h : cs.all isSafeChar = true)
    (t : List Char) (q : Bool) :
    srun ⟨t, q, .word⟩ cs = ([], ⟨t ++ cs, q, .word⟩) := by
  induction cs generalizing t with
  | nil => simp [srun]
  | cons c rest ih =>
      simp only [List.all_cons, Bool.and_eq_true] at h
      simp [srun, sstepK_safe_word h.1 t q, ih h.2]

theorem srun_squote_enc (cs : List Char) (t : List Char) (q : Bool) :
    srun ⟨t, q, .squote⟩ (cs.flatMap quoteCharEnc ++ ['\'']) =
      ([], ⟨t ++ cs, true, .word⟩) := by
  induction cs generalizing t q with
  | nil => simp [srun, sstepK]
  | cons c rest ih =>
      by_cases hc : c = '\''
      · subst hc
        simp only [List.flatMap_cons, quoteCharEnc, if_pos rfl, List.cons_append,
          List.append_assoc, List.nil_append]
        simp [srun, sstepK, ih,
          show isWS '"' = false from by decide,
          show isWS '\'' = false from by decide,
          show ('"' : Char) ≠ '\\' from by decide,
          show ('"' : Char) ≠ '\'' from by decide,
          show ('\'' : Char) ≠ '\\' from by decide,
          show ('\'' : Char) ≠ '"' from by decide]
      · simp only [List.flatMap_cons, quoteCharEnc, if_neg hc, List.cons_append,
          List.append_assoc, List.nil_append]
        simp [srun, sstepK, hc, ih]

theorem srun_shQuote (s : List Char) :
    ∃ q, srun ⟨[], false, .between⟩ (shQuoteCore s) = ([], ⟨s, q, .word⟩) ∧
      (s ≠ [] ∨ q = true) := by
  by_cases h0 : s = []
  · subst h0
    refine ⟨true, ?_, Or.inr rfl⟩
    simp [shQuoteCore, srun, sstepK,
      show isWS '\'' = false from by decide,
      show ('\'' : Char) ≠ '\\' from by decide]
  · by_cases h1 : s.all isSafeChar
    · refine ⟨false, ?_, Or.inl h0⟩
      obtain ⟨c, rest, rfl⟩ := List.exists_cons_of_ne_nil h0
      simp only [List.all_cons, Bool.and_eq_true] at h1
      simp [shQuoteCore, h0, h1, srun, sstepK_safe_between h1.1,
        srun_safe_word h1.2]
    · refine ⟨true, ?_, Or.inl h0⟩
      simp only [shQuoteCore, if_neg h0, if_neg h1]
      have hstep : sstepK ⟨[], false, .between⟩ '\'' = ([], ⟨[], false, .squote⟩) := by
        decide
      simp [srun, hstep, srun_squote_enc]

theorem srun_joinQuoted (rest : List String) (a : String) :
    ∃ q, srun ⟨[], false, .between⟩ (joinQuotedCore (a :: rest)) =
      ((a :: rest).dropLast,
        ⟨((a :: rest).getLast (List.cons_ne_nil a rest)).data, q, .word⟩) ∧
      (((a :: rest).getLast (List.cons_ne_nil a rest)).data ≠ [] ∨ q = true) := by
  induction rest generalizing a with
  | nil =>
      obtain ⟨q, hq, hside⟩ := srun_shQuote a.data
      exact ⟨q, by simpa [joinQuotedCore] using hq, hside⟩
  | cons b rest ih =>
      obtain ⟨q1, hq1, hside1⟩ := srun_shQuote a.data
      obtain ⟨q2, hq2, hside2⟩ := ih b
      refine ⟨q2, ?_, by simpa [List.getLast_cons] using hside2⟩
      have hws : sstepK ⟨a.data, q1, .word⟩ ' ' =
          ([String.mk a.data], ⟨[], false, .between⟩) := by
        have hcond : a.data ≠ [] ∨ q1 = true := hside1
        simp [sstepK, show isWS ' ' = true from by decide, hcond]
      simp only [joinQuotedCore, srun_append, hq1]
      simp [srun, hws, hq2, List.getLast_cons, List.dropLast_cons₂]

theorem sstepK_betweenInv (c : Char) {k : SKer}
    (h : k.st = .between → k.tok = [] ∧ k.quoted = false) :
    (sstepK k c).2.st = .between →
      (sstepK k c).2.tok = [] ∧ (sstepK k c).2.quoted = false := by
  obtain ⟨tok, q, st⟩ := k
  cases st <;> simp only [sstepK] <;> first
    | (split_ifs <;> simp_all)
    | simp_all

theorem srun_betweenInv (cs : List Char) {k : SKer}
    (h : k.st = .between → k.tok = [] ∧ k.quoted = false) :
    (srun k cs).2.st = .between →
      (srun k cs).2.tok = [] ∧ (srun k cs).2.quoted = false := by
  induction cs generalizing k with
  | nil => simpa [srun] using h
  | cons c cs ih => simpa [srun] using ih (sstepK_betweenInv c h)

theorem shlexSplit_appendExtras {cmd : String} {toks : List String}
    (h : shlexSplit cmd = some toks) {extras : List String} (hne : extras ≠ []) :
    shlexSplit (appendExtras cmd extras) = some (toks ++ extras) := by
  obtain ⟨a, rest, rfl⟩ := List.exists_cons_of_ne_nil hne
  obtain ⟨q2, hj, hside⟩ := srun_joinQuoted rest a
  have hdrop : (a :: rest).dropLast ++ [(a :: rest).getLast (List.cons_ne_nil a rest)] =
      a :: rest := List.dropLast_append_getLast (List.cons_ne_nil a rest)
  have hmk : ∀ l : List Char, (String.mk l).data = l := fun _ => rfl
  have hmk2 : String.mk ((a :: rest).getLast (List.cons_ne_nil a rest)).data =
      (a :: rest).getLast (List.cons_ne_nil a rest) := rfl
  have hinv := srun_betweenInv (k := ⟨[], false, .between⟩) cmd.data
    (fun _ => ⟨rfl, rfl⟩)
  simp only [shlexSplit, shlexSplitCore, appendExtras, hmk] at h ⊢
  rw [srun_append]
  generalize hP : srun ⟨[], false, .between⟩ cmd.data = P at h hinv ⊢
  obtain ⟨out, tok, q, st⟩ := P
  simp only at h hinv ⊢
  cases st with
  | squote => simp [sfinishK] at h
  | dquote => simp [sfinishK] at h
  | esc => simp [sfinishK] at h
  | escDq => simp [sfinishK] at h
  | between =>
      obtain ⟨htok, hq⟩ := hinv rfl
      subst htok; subst hq
      simp only [sfinishK, ne_eq, not_true_eq_false, false_or, Bool.false_eq_true,
        if_false, Option.map_some', Option.some.injEq, List.append_nil] at h
      subst h
      simp only [srun, sstepK, show isWS ' ' = true from by decide, if_pos trivial]
      rw [hj]
      simp only [sfinishK, if_pos hside, Option.map_some', Option.some.injEq, hmk2]
      simp only [List.nil_append, List.append_assoc, List.singleton_append]
      rw [hdrop]
  | word =>
      simp only [sfinishK, Option.map_some', Option.some.injEq] at h
      simp only [srun, sstepK, show isWS ' ' = true from by decide, if_pos trivial]
      by_cases hcond : tok ≠ [] ∨ q = true
      · rw [if_pos hcond] at h
        simp only [if_pos hcond]
        rw [hj]
        simp only [sfinishK, if_pos hside, Option.map_some', Option.some.injEq, hmk2]
        rw [← h]
        simp only [List.nil_append, List.append_assoc, List.singleton_append,
          List.cons_append]
        rw [hdrop]
      · rw [if_neg hcond] at h
        push_neg at hcond
        obtain ⟨htok, hqne⟩ := hcond
        have hq : q = false := by simpa using hqne
        simp only [if_neg (show ¬(tok ≠ [] ∨ q = true) from by
          push_neg; exact ⟨htok, hqne⟩)]
        subst htok; subst hq
        rw [hj]
        simp only [sfinishK, if_pos hside, Option.map_some', Option.some.injEq, hmk2]
        simp only [List.append_nil] at h
        subst h
        simp only [List.nil_append, List.append_assoc, List.singleton_append]
        rw [hdrop]

/-! ### Lemmas about the dictionary model -/

theorem lookupEnv_replace (d : Env) (k v : String)
    (h : d.any (fun p => p.1 = k) = true) :
    lookupEnv (d.map (fun p => if p.1 = k then (k, v) else p)) k = some v := by
  induction d with
  | nil => simp at h
  | cons p d ih =>
      simp only [List.any_cons, Bool.or_eq_true, decide_eq_true_eq] at h
      by_cases hp : p.1 = k
      · simp only [lookupEnv, List.map_cons, if_pos hp]
        rw [List.find?_cons_of_pos _ (by simp)]
        rfl
      · have h' : d.any (fun p => p.1 = k) = true := by
          rcases h with h | h
          · exact absurd h hp
          · exact h
        simp only [lookupEnv, List.map_cons, if_neg hp]
        rw [List.find?_cons_of_neg _ (by simp [hp])]
        exact ih h'

theorem lookupEnv_replace_ne (d : Env) (k v k' : String) (hk : k' ≠ k) :
    lookupEnv (d.map (fun p => if p.1 = k then (k, v) else p)) k' =
      lookupEnv d k' := by
  induction d with
  | nil => rfl
  | cons p d ih =>
      by_cases hp : p.1 = k
      · simp only [lookupEnv, List.map_cons, if_pos hp]
        rw [List.find?_cons_of_neg _ (by simp [Ne.symm hk]),
          List.find?_cons_of_neg _ (by simp [hp, Ne.symm hk])]
        exact ih
      · simp only [lookupEnv, List.map_cons, if_neg hp]
        by_cases hp' : p.1 = k'
        · rw [List.find?_cons_of_pos _ (by simp [hp']),
            List.find?_cons_of_pos _ (by simp [hp'])]
        · rw [List.find?_cons_of_neg _ (by simp [hp']),
            List.find?_cons_of_neg _ (by simp [hp'])]
          exact ih

theorem lookupEnv_any_false (d : Env) (k : String)
    (h : d.any (fun p => p.1 = k) = false) :
    lookupEnv d k = none := by
  rw [lookupEnv, List.find?_eq_none.mpr, Option.map_none']
  intro x hx
  simp only [List.any_eq_false] at h
  simpa using h x hx

theorem lookupEnv_dictInsert (d : Env) (k v k' : String) :
    lookupEnv (dictInsert d k v) k' =
      if k' = k then some v else lookupEnv d k' := by
  by_cases hany : d.any (fun p => p.1 = k) = true
  · rw [dictInsert, if_pos hany]
    by_cases hk : k' = k
    · subst hk
      rw [if_pos rfl]
      exact lookupEnv_replace d k' v hany
    · rw [if_neg hk]
      exact lookupEnv_replace_ne d k v k' hk
  · rw [dictInsert, if_neg hany, lookupEnv, List.find?_append]
    by_cases hk : k' = k
    · subst hk
      rw [List.find?_eq_none.mpr, Option.none_or, List.find?_cons_of_pos _ (by simp)]
      · rw [if_pos rfl]; rfl
      · intro x hx
        simp only [Bool.not_eq_true] at hany
        simp only [List.any_eq_false] at hany
        simpa using hany x hx
    · rw [if_neg hk, List.find?_cons_of_neg _ (by simp [Ne.symm hk])]
      simp only [List.find?_nil, Option.or_none]
      rfl

theorem lookupEnv_dictMerge (base upd : Env) (hnd : (upd.map Prod.fst).Nodup)
    (k : String) :
    lookupEnv (dictMerge base upd) k =
      (lookupEnv upd k).or (lookupEnv base k) := by
  induction upd generalizing base with
  | nil => simp [dictMerge, lookupEnv]
  | cons p upd ih =>
      simp only [List.map_cons, List.nodup_cons] at hnd
      have hmerge : dictMerge base (p :: upd) =
          dictMerge (dictInsert base p.1 p.2) upd := rfl
      rw [hmerge, ih (dictInsert base p.1 p.2) hnd.2]
      by_cases hk : p.1 = k
      · subst hk
        have hupd : lookupEnv upd p.1 = none := by
          apply lookupEnv_any_false
          simp only [List.any_eq_false]
          intro x hx
          simp only [decide_eq_true_eq]
          intro hx1
          exact hnd.1 (hx1 ▸ List.mem_map_of_mem Prod.fst hx)
        rw [hupd, lookupEnv_dictInsert, if_pos rfl, Option.none_or]
        have : lookupEnv (p :: upd) p.1 = some p.2 := by
          rw [lookupEnv, List.find?_cons_of_pos _ (by simp)]
          rfl
        rw [this]
        rfl
      · rw [lookupEnv_dictInsert, if_neg (fun h => hk h.symm)]
        have : lookupEnv (p :: upd) k = lookupEnv upd k := by
          rw [lookupEnv, List.find?_cons_of_neg _ (by simp [hk]), lookupEnv]
        rw [this]

/-! ### Lemmas about resolution -/

theorem resolveFuel_succ (allScripts : Registry) (fuel : Nat) (script : ScriptDef)
    (seen : List String) :
    resolveFuel allScripts (fuel + 1) script seen =
      if script.name ∈ seen then
        .error ("Circular reference detected: " ++ script.name)
      else if script.is_composite = false then
        .ok (script.commands.map (fun cmd => (cmd, script.env)))
      else
        resolveItemsWith allScripts script.env
          (fun referenced =>
            resolveFuel allScripts fuel referenced (script.name :: seen))
          script.commands := rfl

/-- The per-entry expansion of one composite entry: a registry key is
replaced by the referenced script's resolution, anything else is one
literal step with the enclosing composite's environment. -/
def expandEntry (allScripts : Registry) (env : Env)
    (resolveRef : ScriptDef → Except String (List Step)) (item : String) :
    Except String (List Step) :=
  match lookupScript allScripts item with
  | some referenced => resolveRef referenced
  | none => .ok [(item, env)]

/-- Expand every entry of a composite, keeping the per-entry step sequences
separate (error short-circuits, as the Python exception does). -/
def expandAll (f : String → Except String (List Step)) :
    List String → Except String (List (List Step))
  | [] => .ok []
  | x :: xs => do
      let y ← f x
      let ys ← expandAll f xs
      pure (y :: ys)

theorem resolveItemsWith_eq_flatten (allScripts : Registry) (env : Env)
    (resolveRef : ScriptDef → Except String (List Step)) (items : List String) :
    resolveItemsWith allScripts env resolveRef items =
      (expandAll (expandEntry allScripts env resolveRef) items).map
        List.flatten := by
  induction items with
  | nil => rfl
  | cons item rest ih =>
      cases hl : lookupScript allScripts item with
      | some referenced =>
          cases hx : resolveRef referenced with
          | error e =>
              simp [resolveItemsWith, expandAll, expandEntry, hl, hx,
                Except.map, bind, Except.bind]
          | ok s1 =>
              cases hm : expandAll (expandEntry allScripts env resolveRef) rest with
              | error e2 =>
                  simp [resolveItemsWith, expandAll, expandEntry, hl, hx,
                    Except.map, bind, Except.bind, pure, Except.pure, ih, hm]
              | ok l =>
                  simp [resolveItemsWith, expandAll, expandEntry, hl, hx,
                    Except.map, bind, Except.bind, pure, Except.pure, ih, hm]
      | none =>
          cases hm : expandAll (expandEntry allScripts env resolveRef) rest with
          | error e2 =>
              simp [resolveItemsWith, expandAll, expandEntry, hl,
                Except.map, bind, Except.bind, pure, Except.pure, ih, hm]
          | ok l =>
              simp [resolveItemsWith, expandAll, expandEntry, hl,
                Except.map, bind, Except.bind, pure, Except.pure, ih, hm]

theorem lookupScript_mem {allScripts : Registry} {key : String}
    {s : ScriptDef} (h : lookupScript allScripts key = some s) :
    ∃ p ∈ allScripts, p.2 = s := by
  rw [lookupScript] at h
  cases hf : allScripts.find? (fun p => p.1 = key) with
  | none => rw [hf] at h; cases h
  | some p =>
      rw [hf] at h
      refine ⟨p, List.mem_of_find?_eq_some hf, ?_⟩
      simpa using h

theorem resolveFuel_ok_ne_nil {allScripts : Registry}
    (hreg : ∀ p ∈ allScripts, p.2.commands ≠ []) :
    ∀ (fuel : Nat) (script : ScriptDef) (seen : List String)
      (steps : List Step), script.commands ≠ [] →
      resolveFuel allScripts fuel script seen = .ok steps → steps ≠ [] := by
  intro fuel
  induction fuel with
  | zero => intro script seen steps _ hok; cases hok
  | succ fuel ih =>
      intro script seen steps hs hok
      rw [resolveFuel_succ] at hok
      by_cases hseen : script.name ∈ seen
      · rw [if_pos hseen] at hok; cases hok
      · rw [if_neg hseen] at hok
        by_cases hcomp : script.is_composite = false
        · rw [if_pos hcomp] at hok
          injection hok with hok
          subst hok
          simpa using hs
        · rw [if_neg hcomp] at hok
          obtain ⟨item, rest, hcmd⟩ := List.exists_cons_of_ne_nil hs
          rw [hcmd] at hok
          cases hl : lookupScript allScripts item with
          | some referenced =>
              cases hx : resolveFuel allScripts fuel referenced
                  (script.name :: seen) with
              | error e =>
                  simp only [resolveItemsWith, hl, hx, bind, Except.bind] at hok
                  exact Except.noConfusion hok
              | ok s1 =>
                  cases hr : resolveItemsWith allScripts script.env
                      (fun referenced => resolveFuel allScripts fuel referenced
                        (script.name :: seen)) rest with
                  | error e =>
                      simp only [resolveItemsWith, hl, hx, hr, bind,
                        Except.bind] at hok
                      exact Except.noConfusion hok
                  | ok s2 =>
                      simp only [resolveItemsWith, hl, hx, hr, bind,
                        Except.bind, pure, Except.pure] at hok
                      injection hok with hok
                      subst hok
                      obtain ⟨p, hp, hps⟩ := lookupScript_mem hl
                      have hrc : referenced.commands ≠ [] := hps ▸ hreg p hp
                      have hs1 : s1 ≠ [] :=
                        ih referenced (script.name :: seen) s1 hrc hx
                      simp [hs1]
          | none =>
              cases hr : resolveItemsWith allScripts script.env
                  (fun referenced => resolveFuel allScripts fuel referenced
                    (script.name :: seen)) rest with
              | error e =>
                  simp only [resolveItemsWith, hl, hr, bind, Except.bind,
                    pure, Except.pure] at hok
                  exact Except.noConfusion hok
              | ok s2 =>
                  simp only [resolveItemsWith, hl, hr, bind, Except.bind,
                    pure, Except.pure] at hok
                  injection hok with hok
                  subst hok
                  simp

/-! ### Lemmas about execution -/

theorem foldl_flag_pairs (f : String → List String) (l : List String) :
    ∀ init : List String,
      l.foldl (fun acc x => acc ++ f x) init = init ++ l.flatMap f := by
  induction l with
  | nil => intro init; simp
  | cons x xs ih =>
      intro init
      simp [List.foldl_cons, ih, List.flatMap_cons, List.append_assoc]

theorem editableFlags_eq (l : List String) :
    editableFlags l = l.flatMap (fun path => ["--with-editable", path]) := by
  simpa using foldl_flag_pairs (fun path => ["--with-editable", path]) l []

theorem featuresFlags_eq (l : List String) :
    featuresFlags l = l.flatMap (fun name => ["--extra", name]) := by
  simpa using foldl_flag_pairs (fun name => ["--extra", name]) l []

theorem stepCmdStr_no_extras (cmd : String) (i total : Nat) :
    stepCmdStr cmd [] i total = cmd := by
  simp [stepCmdStr]

theorem runLoop_failfast_aux (spawn : Nat → List String → Option Env → Int)
    (osEnviron : Env) (editable features : List String) (total : Nat) :
    ∀ (steps : List Step) (n j : Nat) (c : Int),
      (∀ p ∈ steps, ∃ t, shlexSplit p.1 = some t) →
      j < steps.length →
      (∀ i v e, i < n + j → spawn i v e = 0) →
      (∀ v e, spawn (n + j) v e = c) →
      c ≠ 0 →
      (runLoop spawn osEnviron editable features [] total n steps).1 = .ok c ∧
      (runLoop spawn osEnviron editable features [] total n steps).2.length =
        j + 1 := by
  intro steps
  induction steps with
  | nil => intro n j c _ hj; simp at hj
  | cons p rest ih =>
      obtain ⟨cmd, env⟩ := p
      intro n j c htok hj h0 hcode hc
      obtain ⟨t, ht⟩ := htok (cmd, env) (by simp)
      cases j with
      | zero =>
          have hsp : spawn n (["uv", "run"] ++ editableFlags editable ++
              featuresFlags features ++ t) (composeRunEnv osEnviron env) = c := by
            simpa using hcode _ _
          simp only [runLoop, stepCmdStr_no_extras, ht, hsp, if_pos hc]
          exact ⟨trivial, rfl⟩
      | succ j =>
          have hsp : spawn n (["uv", "run"] ++ editableFlags editable ++
              featuresFlags features ++ t) (composeRunEnv osEnviron env) = 0 :=
            h0 _ _ _ (by omega)
          have hrec := ih (n + 1) j c
            (fun q hq => htok q (by simp [hq]))
            (by simpa using hj)
            (fun i v e hi => h0 i v e (by omega))
            (fun v e => by
              have : n + 1 + j = n + (j + 1) := by omega
              rw [this]; exact hcode v e)
            hc
          simp only [runLoop, stepCmdStr_no_extras, ht, hsp]
          simp only [ne_eq, not_true_eq_false, if_neg (by simp :
            ¬(0 : Int) ≠ 0)]
          simp [hrec.1, hrec.2]

theorem runLoop_allzero_aux (spawn : Nat → List String → Option Env → Int)
    (osEnviron : Env) (editable features : List String) (total : Nat)
    (hz : ∀ i v e, spawn i v e = 0) :
    ∀ (steps : List Step) (n : Nat),
      (∀ p ∈ steps, ∃ t, shlexSplit p.1 = some t) →
      (runLoop spawn osEnviron editable features [] total n steps).1 = .ok 0 ∧
      (runLoop spawn osEnviron editable features [] total n steps).2.length =
        steps.length := by
  intro steps
  induction steps with
  | nil => intro n _; exact ⟨rfl, rfl⟩
  | cons p rest ih =>
      obtain ⟨cmd, env⟩ := p
      intro n htok
      obtain ⟨t, ht⟩ := htok (cmd, env) (by simp)
      have hrec := ih (n + 1) (fun q hq => htok q (by simp [hq]))
      simp only [runLoop, stepCmdStr_no_extras, ht, hz]
      simp only [ne_eq, not_true_eq_false, if_neg (by simp : ¬(0 : Int) ≠ 0)]
      simp [hrec.1, hrec.2]

theorem runLoop_ok_of_wellformed (spawn : Nat → List String → Option Env → Int)
    (osEnviron : Env) (editable features extraArgs : List String) (total : Nat) :
    ∀ (steps : List Step) (n : Nat),
      (∀ p ∈ steps, ∃ t, shlexSplit p.1 = some t) →
      ∃ code, (runLoop spawn osEnviron editable features extraArgs total
        n steps).1 = .ok code := by
  intro steps
  induction steps with
  | nil => intro n _; exact ⟨0, rfl⟩
  | cons p rest ih =>
      obtain ⟨cmd, env⟩ := p
      intro n htok
      obtain ⟨t, ht⟩ := htok (cmd, env) (by simp)
      have hsplit : ∃ u, shlexSplit (stepCmdStr cmd extraArgs n total) = some u := by
        rw [stepCmdStr]
        by_cases hcond : extraArgs ≠ [] ∧ n = total - 1
        · rw [if_pos hcond]
          exact ⟨t ++ extraArgs, shlexSplit_appendExtras ht hcond.1⟩
        · rw [if_neg hcond]
          exact ⟨t, ht⟩
      obtain ⟨u, hu⟩ := hsplit
      simp only [runLoop, hu]
      split_ifs with hnz
      · exact ⟨_, rfl⟩
      · exact ih (n + 1) (fun q hq => htok q (by simp [hq]))

theorem runLoop_last_trace {cmd : String} {toks : List String}
    (h : shlexSplit cmd = some toks) {extraArgs : List String}
    (hne : extraArgs ≠ []) (spawn : Nat → List String → Option Env → Int)
    (osEnviron env : Env) (editable features : List String) (i : Nat) :
    (runLoop spawn osEnviron editable features extraArgs (i + 1) i
        [(cmd, env)]).2 =
      [(["uv", "run"] ++ editableFlags editable ++ featuresFlags features ++
          (toks ++ extraArgs), composeRunEnv osEnviron env)] := by
  have hcmd : stepCmdStr cmd extraArgs i (i + 1) = appendExtras cmd extraArgs := by
    simp [stepCmdStr, hne]
  have hsplit := shlexSplit_appendExtras h hne
  simp only [runLoop, hcmd, hsplit]
  split_ifs with hnz
  · rfl
  · rfl

theorem runLoop_single_trace {cmd : String} {parts : List String}
    (h : shlexSplit cmd = some parts)
    (spawn : Nat → List String → Option Env → Int)
    (osEnviron env : Env) (editable features : List String) (i total : Nat) :
    (runLoop spawn osEnviron editable features [] total i [(cmd, env)]).2 =
      [(["uv", "run"] ++ editableFlags editable ++ featuresFlags features ++
          parts, composeRunEnv osEnviron env)] := by
  simp only [runLoop, stepCmdStr_no_extras, h]
  split_ifs with hnz
  · rfl
  · rfl

/-! ### The claims -/

/-- C1: Resolution fails with a cyclic-reference error identifying the
offending script name exactly when it revisits a script already on the
current expansion path: a direct self-reference (`a → a`) and a two-step
cycle (`a → b → a`) always raise the error naming `a`, for any script
environments; a diamond (`a → b`, `a → c`, both `b` and `c` referencing a
common sub-script `d`, none referencing `a`) never raises, and `d`'s steps
appear once per referencing branch in the flattened result. -/
theorem claim_c1 :
    (∀ ea : Env,
      resolve_steps ⟨"a", ["a"], ea, "", true⟩
          [("a", ⟨"a", ["a"], ea, "", true⟩)] =
        .error "Circular reference detected: a") ∧
    (∀ ea eb : Env,
      resolve_steps ⟨"a", ["b"], ea, "", true⟩
          [("a", ⟨"a", ["b"], ea, "", true⟩),
           ("b", ⟨"b", ["a"], eb, "", true⟩)] =
        .error "Circular reference detected: a") ∧
    (∀ (cd : String) (ea eb ec ed : Env),
      resolve_steps ⟨"a", ["b", "c"], ea, "", true⟩
          [("a", ⟨"a", ["b", "c"], ea, "", true⟩),
           ("b", ⟨"b", ["d"], eb, "", true⟩),
           ("c", ⟨"c", ["d"], ec, "", true⟩),
           ("d", ⟨"d", [cd], ed, "", false⟩)] =
        .ok [(cd, ed), (cd, ed)]) :=
  ⟨fun _ => rfl, fun _ _ => rfl, fun _ _ _ _ _ => rfl⟩

/-- C2: for every non-empty extra-argument list, each extra argument is
appended individually to the final step's argument vector, preserved
verbatim and never re-split: the vector spawned for the last step is the
launcher prefix, the flag pairs, the tokenized command, and then exactly
the elements of `extraArgs`. -/
theorem claim_c2 {cmd : String} {toks : List String}
    (h : shlexSplit cmd = some toks) {extraArgs : List String}
    (hne : extraArgs ≠ []) (spawn : Nat → List String → Option Env → Int)
    (osEnviron env : Env) (editable features : List String) (i : Nat) :
    (runLoop spawn osEnviron editable features extraArgs (i + 1) i
        [(cmd, env)]).2 =
      [(["uv", "run"] ++ editableFlags editable ++ featuresFlags features ++
          (toks ++ extraArgs), composeRunEnv osEnviron env)] :=
  runLoop_last_trace h hne spawn osEnviron env editable features i

/-- C2 witness: for the step `pytest tests/` with extra arguments
`["-k", "foo"]` the spawned vector is exactly
`["uv", "run", "pytest", "tests/", "-k", "foo"]`. -/
theorem claim_c2_witness :
    shlexSplit "pytest tests/" = some ["pytest", "tests/"] ∧
    (["-k", "foo"] : List String) ≠ [] ∧
    (runLoop (fun _ _ _ => 0) [] [] [] ["-k", "foo"] 1 0
        [("pytest tests/", [])]).2 =
      [(["uv", "run", "pytest", "tests/", "-k", "foo"], none)] :=
  ⟨by decide, by decide,
    (@claim_c2 "pytest tests/" ["pytest", "tests/"] (by decide) ["-k", "foo"]
      (by decide) (fun _ _ _ => 0) [] [] [] [] 0).trans (by decide)⟩

/-- C3: execution is fail-fast: over the resolved steps, the executor
spawns in order and, at the first step whose child exits non-zero, returns
that exit code having spawned exactly the steps up to and including it; if
every child exits 0 it spawns each step exactly once and returns 0. -/
theorem claim_c3 (spawn : Nat → List String → Option Env → Int)
    (osEnviron : Env) (editable features : List String) (script : ScriptDef)
    (allScripts : Registry) (steps : List Step)
    (hres : resolve_steps script allScripts = .ok steps)
    (htok : ∀ p ∈ steps, ∃ t, shlexSplit p.1 = some t) :
    (∀ (j : Nat) (c : Int), j < steps.length →
      (∀ i v e, i < j → spawn i v e = 0) →
      (∀ v e, spawn j v e = c) → c ≠ 0 →
      (run_script script allScripts [] editable features spawn osEnviron).1 =
        .ok c ∧
      (run_script script allScripts [] editable features spawn
        osEnviron).2.length = j + 1) ∧
    ((∀ i v e, spawn i v e = 0) →
      (run_script script allScripts [] editable features spawn osEnviron).1 =
        .ok 0 ∧
      (run_script script allScripts [] editable features spawn
        osEnviron).2.length = steps.length) := by
  constructor
  · intro j c hj h0 hcode hc
    have haux := runLoop_failfast_aux spawn osEnviron editable features
      steps.length steps 0 j c htok hj (by simpa using h0) (by simpa using hcode)
      hc
    simpa [run_script, hres] using haux
  · intro hz
    have haux := runLoop_allzero_aux spawn osEnviron editable features
      steps.length hz steps 0 htok
    simpa [run_script, hres] using haux

/-- C3 witness: a two-step composite whose first child exits 1 spawns
exactly once and returns 1. -/
theorem claim_c3_witness :
    (run_script ⟨"t", ["echo a", "echo b"], [], "", true⟩ [] [] [] []
        (fun i _ _ => if i = 0 then 1 else 0) []).1 = .ok 1 ∧
    (run_script ⟨"t", ["echo a", "echo b"], [], "", true⟩ [] [] [] []
        (fun i _ _ => if i = 0 then 1 else 0) []).2.length = 0 + 1 :=
  (claim_c3 (fun i _ _ => if i = 0 then 1 else 0) [] [] []
      ⟨"t", ["echo a", "echo b"], [], "", true⟩ []
      [("echo a", []), ("echo b", [])] (by decide)
      (by
        intro p hp
        simp only [List.mem_cons, List.not_mem_nil, or_false] at hp
        rcases hp with rfl | rfl
        · exact ⟨["echo", "a"], by decide⟩
        · exact ⟨["echo", "b"], by decide⟩)).1
    0 1 (by decide) (fun i v e hi => absurd hi (by omega))
    (fun v e => rfl) (by decide)

/-- C4: for every composite script, registry, visited path and fuel,
resolution processes entries in listing order: an entry matching a
registry key is replaced in place by the referenced script's resolution
(under the extended path, hence carrying the referenced script's own
environment in its steps), every other entry becomes one literal step
carrying the enclosing composite's environment, and the result is the
in-order concatenation (flattening) of the per-entry sequences. -/
theorem claim_c4 (allScripts : Registry) (script : ScriptDef)
    (seen : List String) (fuel : Nat) (hcomp : script.is_composite = true)
    (hseen : script.name ∉ seen) :
    resolveFuel allScripts (fuel + 1) script seen =
      (expandAll (expandEntry allScripts script.env
        (fun referenced => resolveFuel allScripts fuel referenced
          (script.name :: seen))) script.commands).map List.flatten := by
  rw [resolveFuel_succ, if_neg hseen, if_neg (by simp [hcomp]),
    resolveItemsWith_eq_flatten]

/-- C4 witness: the diamond registry instance, at the top-level fuel. -/
theorem claim_c4_witness :
    resolveFuel
        [("a", ⟨"a", ["b", "c"], [("P", "1")], "", true⟩),
         ("b", ⟨"b", ["d"], [("Q", "2")], "", true⟩),
         ("c", ⟨"c", ["d"], [("R", "3")], "", true⟩),
         ("d", ⟨"d", ["echo d"], [("S", "4")], "", false⟩)]
        (5 + 1) ⟨"a", ["b", "c"], [("P", "1")], "", true⟩ [] =
      (expandAll (expandEntry
        [("a", ⟨"a", ["b", "c"], [("P", "1")], "", true⟩),
         ("b", ⟨"b", ["d"], [("Q", "2")], "", true⟩),
         ("c", ⟨"c", ["d"], [("R", "3")], "", true⟩),
         ("d", ⟨"d", ["echo d"], [("S", "4")], "", false⟩)]
        [("P", "1")]
        (fun referenced => resolveFuel
          [("a", ⟨"a", ["b", "c"], [("P", "1")], "", true⟩),
           ("b", ⟨"b", ["d"], [("Q", "2")], "", true⟩),
           ("c", ⟨"c", ["d"], [("R", "3")], "", true⟩),
           ("d", ⟨"d", ["echo d"], [("S", "4")], "", false⟩)]
          5 referenced ("a" :: []))) ["b", "c"]).map List.flatten :=
  claim_c4 _ ⟨"a", ["b", "c"], [("P", "1")], "", true⟩ [] 5 rfl (by decide)

/-- C5: the spawned process's environment: an empty step mapping passes no
explicit environment (`none`, inheriting the current process environment);
a non-empty mapping passes the current environment merged with the step's
mapping, and on any key collision the step's value wins (lookup in the
merge is lookup in the step mapping, falling back to the inherited one). -/
theorem claim_c5 (osEnviron env : Env) :
    (env = [] → composeRunEnv osEnviron env = none) ∧
    (env ≠ [] → composeRunEnv osEnviron env =
      some (dictMerge osEnviron env)) ∧
    ((env.map Prod.fst).Nodup → ∀ k,
      lookupEnv (dictMerge osEnviron env) k =
        (lookupEnv env k).or (lookupEnv osEnviron k)) :=
  ⟨fun h => by simp [composeRunEnv, h],
   fun h => by simp [composeRunEnv, h],
   fun hnd k => lookupEnv_dictMerge osEnviron env hnd k⟩

/-- C5 witness: with inherited `PORT=3000`, a step mapping `PORT=8080`
overrides it, and an empty mapping inherits unchanged. -/
theorem claim_c5_witness :
    composeRunEnv [("PORT", "3000"), ("HOME", "/root")] [] = none ∧
    composeRunEnv [("PORT", "3000"), ("HOME", "/root")] [("PORT", "8080")] =
      some [("PORT", "8080"), ("HOME", "/root")] ∧
    lookupEnv (dictMerge [("PORT", "3000"), ("HOME", "/root")]
      [("PORT", "8080")]) "PORT" = some "8080" ∧
    lookupEnv (dictMerge [("PORT", "3000"), ("HOME", "/root")]
      [("PORT", "8080")]) "HOME" = some "/root" :=
  ⟨(claim_c5 [("PORT", "3000"), ("HOME", "/root")] []).1 rfl,
   ((claim_c5 [("PORT", "3000"), ("HOME", "/root")] [("PORT", "8080")]).2.1
     (by decide)).trans (by decide),
   ((claim_c5 [("PORT", "3000"), ("HOME", "/root")] [("PORT", "8080")]).2.2
     (by decide) "PORT").trans (by decide),
   ((claim_c5 [("PORT", "3000"), ("HOME", "/root")] [("PORT", "8080")]).2.2
     (by decide) "HOME").trans (by decide)⟩

/-- C6: the argument vector handed to the launcher is, in order: the fixed
prefix `["uv", "run"]`, one `--with-editable` pair per editable path in
order, one `--extra` pair per feature name in order (so all editable pairs
precede all extra pairs), then the shell-tokenized step command. -/
theorem claim_c6 {cmd : String} {parts : List String}
    (h : shlexSplit cmd = some parts)
    (spawn : Nat → List String → Option Env → Int) (osEnviron env : Env)
    (editable features : List String) (i total : Nat) :
    (runLoop spawn osEnviron editable features [] total i [(cmd, env)]).2 =
      [(["uv", "run"] ++
          editable.flatMap (fun path => ["--with-editable", path]) ++
          features.flatMap (fun name => ["--extra", name]) ++ parts,
        composeRunEnv osEnviron env)] := by
  rw [runLoop_single_trace h spawn osEnviron env editable features i total,
    editableFlags_eq, featuresFlags_eq]

/-- C6 witness: with `editable = ["/pkg1", "/pkg2"]` and
`features = ["speedups", "cli"]`, the editable pairs precede the extra
pairs in the spawned vector. -/
theorem claim_c6_witness :
    shlexSplit "pytest" = some ["pytest"] ∧
    (runLoop (fun _ _ _ => 0) [] ["/pkg1", "/pkg2"] ["speedups", "cli"] [] 1 0
        [("pytest", [])]).2 =
      [(["uv", "run", "--with-editable", "/pkg1", "--with-editable", "/pkg2",
          "--extra", "speedups", "--extra", "cli", "pytest"], none)] :=
  ⟨by decide,
    (@claim_c6 "pytest" ["pytest"] (by decide) (fun _ _ _ => 0) [] []
      ["/pkg1", "/pkg2"] ["speedups", "cli"] 0 1).trans (by decide)⟩

/-- C7: a non-composite script with a single command resolves, for any
registry, to exactly that one literal step carrying the script's own
environment; the entry is never interpreted as a reference, even when its
text is a registry key. -/
theorem claim_c7 (script : ScriptDef) (allScripts : Registry) (c : String)
    (hcomp : script.is_composite = false) (hcmd : script.commands = [c]) :
    resolve_steps script allScripts = .ok [(c, script.env)] := by
  rw [resolve_steps]
  rw [show allScripts.length + 2 = (allScripts.length + 1) + 1 from rfl,
    resolveFuel_succ, if_neg (by simp), if_pos hcomp, hcmd]
  rfl

/-- C7 witness: the single command `pytest` is run literally even though
`pytest` is a key of the registry. -/
theorem claim_c7_witness :
    resolve_steps ⟨"x", ["pytest"], [("A", "1")], "", false⟩
        [("pytest", ⟨"pytest", ["echo hi"], [], "", false⟩)] =
      .ok [("pytest", [("A", "1")])] :=
  claim_c7 ⟨"x", ["pytest"], [("A", "1")], "", false⟩
    [("pytest", ⟨"pytest", ["echo hi"], [], "", false⟩)] "pytest" rfl rfl

/-- C8: a cyclic-reference error raised during resolution is fatal and
atomic: `run_script` propagates the error unchanged and performs no spawn
call at all. -/
theorem claim_c8 (script : ScriptDef) (allScripts : Registry) (e : String)
    (extraArgs editable features : List String)
    (spawn : Nat → List String → Option Env → Int) (osEnviron : Env)
    (h : resolve_steps script allScripts = .error e) :
    run_script script allScripts extraArgs editable features spawn osEnviron =
      (.error e, []) := by
  rw [run_script, h]

/-- C8 witness: running the two-script cycle `a → b → a` propagates the
cycle error and spawns nothing. -/
theorem claim_c8_witness :
    run_script ⟨"a", ["b"], [], "", true⟩
        [("a", ⟨"a", ["b"], [], "", true⟩), ("b", ⟨"b", ["a"], [], "", true⟩)]
        [] [] [] (fun _ _ _ => 0) [] =
      (.error "Circular reference detected: a", []) :=
  claim_c8 ⟨"a", ["b"], [], "", true⟩
    [("a", ⟨"a", ["b"], [], "", true⟩), ("b", ⟨"b", ["a"], [], "", true⟩)]
    "Circular reference detected: a" [] [] [] (fun _ _ _ => 0) [] (by decide)

/-- C9: under the data-model invariant that every registry record's
command list is non-empty (and the target's is non-empty), a successful
resolution always returns a non-empty step sequence, so the executor never
runs over zero steps and the last step is well defined. -/
theorem claim_c9 (script : ScriptDef) (allScripts : Registry)
    (steps : List Step) (hreg : ∀ p ∈ allScripts, p.2.commands ≠ [])
    (hs : script.commands ≠ [])
    (hok : resolve_steps script allScripts = .ok steps) : steps ≠ [] :=
  resolveFuel_ok_ne_nil hreg (allScripts.length + 2) script [] steps hs hok

/-- C9 witness: the diamond registry resolution is non-empty. -/
theorem claim_c9_witness :
    ([("echo d", [("S", "4")]), ("echo d", [("S", "4")])] : List Step) ≠ [] :=
  claim_c9 ⟨"a", ["b", "c"], [], "", true⟩
    [("a", ⟨"a", ["b", "c"], [], "", true⟩),
     ("b", ⟨"b", ["d"], [], "", true⟩),
     ("c", ⟨"c", ["d"], [], "", true⟩),
     ("d", ⟨"d", ["echo d"], [("S", "4")], "", false⟩)]
    [("echo d", [("S", "4")]), ("echo d", [("S", "4")])]
    (by
      intro p hp
      simp only [List.mem_cons, List.not_mem_nil, or_false] at hp
      rcases hp with rfl | rfl | rfl | rfl <;> decide)
    (by decide) (by decide)

/-- C10: the run is partial over arbitrary literal command strings: a step
command with an unmatched quote makes tokenization fail and the run
returns the tokenization error (no exit code, nothing spawned); under the
precondition that every step command is well-formed for shell word
splitting, the error branch is unreachable and the loop always returns an
exit code. -/
theorem claim_c10 (spawn : Nat → List String → Option Env → Int)
    (osEnviron : Env) :
    (∀ editable features : List String,
      run_script ⟨"bad", ["echo \"oops"], [], "", false⟩ [] [] editable
          features spawn osEnviron =
        (.error "ValueError: No closing quotation", [])) ∧
    (∀ (steps : List Step) (editable features extraArgs : List String)
        (n total : Nat),
      (∀ p ∈ steps, ∃ t, shlexSplit p.1 = some t) →
      ∃ code, (runLoop spawn osEnviron editable features extraArgs total n
        steps).1 = .ok code) :=
  ⟨fun _ _ => rfl,
   fun steps editable features extraArgs n total htok =>
     runLoop_ok_of_wellformed spawn osEnviron editable features extraArgs
       total steps n htok⟩

/-- C10 witness: the unmatched-quote command fails with the tokenization
error, while a well-formed one-step run returns an exit code. -/
theorem claim_c10_witness :
    run_script ⟨"bad", ["echo \"oops"], [], "", false⟩ [] [] [] []
        (fun _ _ _ => 0) [] =
      (.error "ValueError: No closing quotation", []) ∧
    ∃ code, (runLoop (fun _ _ _ => 0) [] [] [] [] 1 0
      [("echo hi", [])]).1 = .ok code :=
  ⟨(claim_c10 (fun _ _ _ => 0) []).1 [] [],
   (claim_c10 (fun _ _ _ => 0) []).2 [("echo hi", [])] [] [] [] 0 1
     (by
       intro p hp
       simp only [List.mem_cons, List.not_mem_nil, or_false] at hp
       subst hp
       exact ⟨["echo", "hi"], by decide⟩)⟩
